import Mathlib

/-!
Shallow embedding of the interval-tree implementation in `IntervalTree.h`.

The C++ code is a template over a coordinate type `T` (a floating point
type in the documentation and the example driver) and a payload type `V`.
We model `T` by `ℚ` — totally ordered, with an exact midpoint operation —
and `V` by `ℕ`.  `std::numeric_limits<T>::max()` / `lowest()` are modelled
by the corresponding values of IEEE double precision (`lowest = -max`),
and the finiteness of the machine coordinate type is reflected by the
predicate `boundedInterval` (every representable coordinate lies between
`lowest` and `max`).

A null `std::unique_ptr<TreeNode>` (an absent child, or an empty tree's
root) is modelled by the constructor `Tree.nil`; a concrete `TreeNode` is
`Tree.node left center sortedByStart sortedByEnd x_center right`,
mirroring the fields `left_`, `center_`, `index_sorted_by_start_`,
`index_sorted_by_end_`, `x_center_`, `right_`.

The recursive bulk constructor `TreeNode(ForwardIt, ForwardIt)` has no
structural termination measure in the C++ source (and indeed fails to
terminate on some malformed inputs), so it is embedded with explicit fuel,
returning `none` when the fuel runs out; `build` supplies fuel
`length + 1`, which is proved sufficient for all well-formed inputs.
-/

namespace IntervalTree

/-- Model of `struct Interval { T start; T end; }`.  The field `end` is a
Lean keyword, so it is rendered `end_`. -/
structure Interval where
  start : ℚ
  end_ : ℚ
deriving DecidableEq

instance : Inhabited Interval := ⟨⟨0, 0⟩⟩

/-- One stored entry: `std::pair<Interval<T>, V>`. -/
abbrev Entry := Interval × ℕ

/-- Model of `std::numeric_limits<double>::max()`: the value
`2 ^ 1024 - 2 ^ 971` (DBL_MAX), written as an explicit literal so that it
evaluates by kernel reduction. -/
def numericLimitsMax : ℚ := 179769313486231570814527423731704356798070567525844996598917476803157260780028538760589558632766878171540458953514382464234321326889464182768467546703537516986049910576551282076245490090389328944075868508455133942304583236903222948165808559332123348274797826204144723168738177180919299881250404026184124858368

/-- Model of `std::numeric_limits<double>::lowest()`. -/
def numericLimitsLowest : ℚ := -numericLimitsMax

/-- Model of `TreeNode`: `nil` is a null `unique_ptr`, `node` a concrete
node with fields `left_`, `center_`, `index_sorted_by_start_`,
`index_sorted_by_end_`, `x_center_`, `right_`. -/
inductive Tree where
  | nil : Tree
  | node (left : Tree) (center : List Entry) (sortedByStart : List ℕ)
      (sortedByEnd : List ℕ) (x_center : ℚ) (right : Tree) : Tree
deriving DecidableEq

/-- Indexing `center_[i]` (all accesses in the source are in bounds). -/
def nth (c : List Entry) (i : ℕ) : Entry := c.getD i default

/-- The comparator `IntervalComp` with `sort_by_start_ = true`, as a weak
order on indices (`std::sort` leaves the order of ties unspecified; any
sort compatible with the weak order refines it). -/
def startLE (c : List Entry) (a b : ℕ) : Prop :=
  (nth c a).1.start ≤ (nth c b).1.start

instance (c : List Entry) : DecidableRel (startLE c) := fun _ _ =>
  inferInstanceAs (Decidable (_ ≤ _))

/-- The comparator `IntervalComp` with `sort_by_start_ = false`. -/
def endLE (c : List Entry) (a b : ℕ) : Prop :=
  (nth c a).1.end_ ≤ (nth c b).1.end_

instance (c : List Entry) : DecidableRel (endLE c) := fun _ _ =>
  inferInstanceAs (Decidable (_ ≤ _))

/-- Model of `TreeNode::sort()`: after extending both index arrays with
`iota` so that they enumerate `0, …, center.size()-1`, both are fully
re-sorted by the two comparators, so the net effect is a sorted
permutation of `range center.length` for each (`std::sort` is unstable,
so any sorted permutation is a faithful refinement). -/
def sortIndices (c : List Entry) : List ℕ × List ℕ :=
  ((List.range c.length).insertionSort (startLE c),
   (List.range c.length).insertionSort (endLE c))

/-- Model of the single-entry constructor
`TreeNode(const Interval<T>&, const V&)`. -/
def leafNode (interval : Interval) (value : ℕ) : Tree :=
  Tree.node Tree.nil [(interval, value)] [0] [0]
    (if (interval.start + interval.end_) / 2 = interval.end_ then interval.start
     else (interval.start + interval.end_) / 2) Tree.nil

/-- `t_min` of the bulk constructor: fold of `std::min` over the entry
starts, starting from `std::numeric_limits<T>::max()`. -/
def tMinOf (entries : List Entry) : ℚ :=
  entries.foldl (fun acc e => min acc e.1.start) numericLimitsMax

/-- `t_max` of the bulk constructor: fold of `std::max` over the entry
ends, starting from `std::numeric_limits<T>::lowest()`. -/
def tMaxOf (entries : List Entry) : ℚ :=
  entries.foldl (fun acc e => max acc e.1.end_) numericLimitsLowest

/-- `x_center_` as computed by the bulk constructor, including the
degeneracy guard `if (x_center_ == t_max) x_center_ = t_min`. -/
def xCenterOf (entries : List Entry) : ℚ :=
  let xc0 := (tMinOf entries + tMaxOf entries) / 2
  if xc0 = tMaxOf entries then tMinOf entries else xc0

/-- The `left` vector of the partitioning pass of the bulk constructor:
entries with `end <= x_center`. -/
def leftsOf (entries : List Entry) : List Entry :=
  entries.filter fun e => decide (e.1.end_ ≤ xCenterOf entries)

/-- The `right` vector of the partitioning pass: entries with
`end > x_center` and `start > x_center`. -/
def rightsOf (entries : List Entry) : List Entry :=
  entries.filter fun e =>
    !decide (e.1.end_ ≤ xCenterOf entries) &&
      decide (xCenterOf entries < e.1.start)

/-- The `center_` list of the partitioning pass: entries neither entirely
left of nor entirely right of `x_center`. -/
def centerOf (entries : List Entry) : List Entry :=
  entries.filter fun e =>
    !decide (e.1.end_ ≤ xCenterOf entries) &&
      !decide (xCenterOf entries < e.1.start)

/-- Model of the recursive bulk constructor
`TreeNode(ForwardIt begin, ForwardIt end)`, with explicit fuel.  The three
filters are the single partitioning pass (`end <= x_center` goes left,
else `start > x_center` goes right, else center); `none` means the C++
recursion would not have terminated within the given depth. -/
def buildAux : ℕ → List Entry → Option Tree
  | 0, _ => none
  | fuel + 1, entries =>
    match (if (leftsOf entries).isEmpty = true then some Tree.nil
           else buildAux fuel (leftsOf entries)),
          (if (rightsOf entries).isEmpty = true then some Tree.nil
           else buildAux fuel (rightsOf entries)) with
    | some lt, some rt =>
        some (Tree.node lt (centerOf entries)
          (sortIndices (centerOf entries)).1 (sortIndices (centerOf entries)).2
          (xCenterOf entries) rt)
    | _, _ => none

/-- Model of `IntervalTree::build` (which installs
`make_unique<TreeNode>(begin, end)` as the new root).  The fuel
`length + 1` dominates the recursion depth for every input on which the
C++ recursion terminates at all. -/
def build (entries : List Entry) : Option Tree :=
  buildAux (entries.length + 1) entries

/-- Model of `IntervalTree::build` as a method of a tree object: the
current root is discarded unconditionally. -/
def buildOn (_ : Tree) (entries : List Entry) : Option Tree := build entries

/-- Model of `TreeNode::insert` together with the null-root case of
`IntervalTree::insert`: descending into an absent child (or inserting
into an empty tree) creates a single-entry leaf; an entry overlapping
`x_center_` is appended to the center list and both index arrays are
re-derived by `sort()`. -/
def insert (interval : Interval) (value : ℕ) : Tree → Tree
  | Tree.nil => leafNode interval value
  | Tree.node l c iS iE xc r =>
    if interval.end_ ≤ xc then
      Tree.node (insert interval value l) c iS iE xc r
    else if xc < interval.start then
      Tree.node l c iS iE xc (insert interval value r)
    else
      Tree.node l (c ++ [(interval, value)])
        (sortIndices (c ++ [(interval, value)])).1
        (sortIndices (c ++ [(interval, value)])).2 xc r

/-- The ascending-start scan of `TreeNode::query` in the
`val <= x_center_` branch: walk `index_sorted_by_start_` and emit while
`center_[*it].first.start <= val`, breaking at the first failure. -/
def scanAsc (val : ℚ) (c : List Entry) (iS : List ℕ) : List Entry :=
  (iS.takeWhile fun i => decide ((nth c i).1.start ≤ val)).map (nth c)

/-- The descending-end scan of `TreeNode::query` in the
`val > x_center_` branch: walk `index_sorted_by_end_` backwards and emit
while `center_[*it].first.end > val`, breaking at the first failure. -/
def scanDesc (val : ℚ) (c : List Entry) (iE : List ℕ) : List Entry :=
  (iE.reverse.takeWhile fun i => decide (val < (nth c i).1.end_)).map (nth c)

/-- Model of `TreeNode::query` together with the null-root check of
`IntervalTree::query`: results of the local scan come first, then the
recursion into the single descended child. -/
def query (val : ℚ) : Tree → List Entry
  | Tree.nil => []
  | Tree.node l c iS iE xc r =>
    if val ≤ xc then scanAsc val c iS ++ query val l
    else scanDesc val c iE ++ query val r

/-- Model of `IntervalTree::clear`: `root_.reset(nullptr)`. -/
def clear (_ : Tree) : Tree := Tree.nil

/-- Model of move construction / move assignment (between distinct
objects): `root_ = std::move(other.root_)`; the pair is
(destination root, source root after the move). -/
def moveConstruct (t : Tree) : Tree × Tree := (t, Tree.nil)

/-- Model of `TreeNode::clone`: a new node with copied `center_`,
`index_sorted_by_start_`, `index_sorted_by_end_` and `x_center_`, and
recursively cloned children (an absent child stays absent). -/
def clone : Tree → Tree
  | Tree.nil => Tree.nil
  | Tree.node l c iS iE xc r => Tree.node (clone l) c iS iE xc (clone r)

/-- Model of the copy constructor / copy assignment body
`root_ = other.root_->clone();`.  When the source root is null this
dereferences a null pointer (there is no null check), which is undefined
behavior; that outcome is modelled by `none`. -/
def copyConstruct : Tree → Option Tree
  | Tree.nil => none
  | t => some (clone t)

/-- All entries stored in a (sub)tree, left subtree first, then the
center list, then the right subtree. -/
def entriesOf : Tree → List Entry
  | Tree.nil => []
  | Tree.node l c _ _ _ r => entriesOf l ++ c ++ entriesOf r

/-- The `x_center_` field of a node (`0` for a null pointer, which the
source never reads). -/
def xcOf : Tree → ℚ
  | Tree.nil => 0
  | Tree.node _ _ _ _ xc _ => xc

/-- Well-formedness documented for `Interval(a, b)`: `b` must be greater
than `a` (the interval `[a, b)` has positive length). -/
def wfInterval (i : Interval) : Prop := i.start < i.end_

instance (i : Interval) : Decidable (wfInterval i) := by
  unfold wfInterval; infer_instance

/-- Representability of the interval's coordinates in the machine
coordinate type: every finite value of the C++ type `T` lies between
`numeric_limits<T>::lowest()` and `numeric_limits<T>::max()`. -/
def boundedInterval (i : Interval) : Prop :=
  numericLimitsLowest ≤ i.start ∧ i.end_ ≤ numericLimitsMax

instance (i : Interval) : Decidable (boundedInterval i) := by
  unfold boundedInterval; infer_instance

/-- A well-formed entry sequence: positive-length, representable
intervals. -/
def wfEntries (es : List Entry) : Prop :=
  ∀ e ∈ es, wfInterval e.1 ∧ boundedInterval e.1

instance (es : List Entry) : Decidable (wfEntries es) := by
  unfold wfEntries; infer_instance

/-- A point stabs a half-open interval: `start ≤ v < end`. -/
def containsPoint (i : Interval) (v : ℚ) : Prop := i.start ≤ v ∧ v < i.end_

instance (i : Interval) (v : ℚ) : Decidable (containsPoint i v) := by
  unfold containsPoint; infer_instance

/-- The index list `idx` is a permutation of the positions of `c` that
enumerates `c` in ascending order of `key`. -/
def sortedPermOf (c : List Entry) (key : Entry → ℚ) (idx : List ℕ) : Prop :=
  idx.Perm (List.range c.length) ∧
    (idx.map fun i => key (nth c i)).Pairwise (· ≤ ·)

instance (c : List Entry) (key : Entry → ℚ) (idx : List ℕ) :
    Decidable (sortedPermOf c key idx) := by
  unfold sortedPermOf; infer_instance

/-- The four structural node invariants of the specification: C1 (every
center entry straddles `x_center`), C2 (left subtree entirely at or below
`x_center`), C3 (right subtree entirely above `x_center`), C4 (the two
index arrays are sorted permutations of the center list by start and by
end), recursively at every node. -/
def Inv : Tree → Prop
  | Tree.nil => True
  | Tree.node l c iS iE xc r =>
      (∀ e ∈ c, e.1.start ≤ xc ∧ xc < e.1.end_) ∧
      (∀ e ∈ entriesOf l, e.1.end_ ≤ xc) ∧
      (∀ e ∈ entriesOf r, xc < e.1.start) ∧
      sortedPermOf c (fun e => e.1.start) iS ∧
      sortedPermOf c (fun e => e.1.end_) iE ∧
      Inv l ∧ Inv r

def Inv.decidable : (t : Tree) → Decidable (Inv t)
  | Tree.nil => isTrue trivial
  | Tree.node l c iS iE xc r => by
      haveI := Inv.decidable l
      haveI := Inv.decidable r
      unfold Inv
      infer_instance

instance (t : Tree) : Decidable (Inv t) := Inv.decidable t

/-- One mutating operation of the public API (used to state the
"any sequence of build and insert operations" invariant claim). -/
inductive Op where
  | build (entries : List Entry) : Op
  | insert (interval : Interval) (value : ℕ) : Op

/-- Apply one operation to the current root, as `IntervalTree::build` /
`IntervalTree::insert` do. -/
def applyOp (t : Tree) : Op → Option Tree
  | Op.build es => build es
  | Op.insert i v => some (insert i v t)

/-- Run a sequence of operations starting from the given root. -/
def runOps : Tree → List Op → Option Tree
  | t, [] => some t
  | t, op :: ops =>
    match applyOp t op with
    | some t' => runOps t' ops
    | none => none

/-- Well-formedness of an operation's arguments: built sequences are
well-formed entry lists, inserted intervals have positive length. -/
def opWF : Op → Prop
  | Op.build es => wfEntries es
  | Op.insert i _ => wfInterval i

instance (op : Op) : Decidable (opWF op) := by
  cases op <;> (unfold opWF; infer_instance)

/-! Basic facts about the `std::min` / `std::max` folds of the bulk
constructor. -/

theorem foldl_min_le_init (f : Entry → ℚ) (l : List Entry) (init : ℚ) :
    l.foldl (fun a x => min a (f x)) init ≤ init := by
  induction l generalizing init with
  | nil => simp
  | cons a l ih =>
    simp only [List.foldl_cons]
    exact le_trans (ih (min init (f a))) (min_le_left _ _)

theorem foldl_min_le_mem (f : Entry → ℚ) (l : List Entry) (init : ℚ) (e : Entry) :
    e ∈ l → l.foldl (fun a x => min a (f x)) init ≤ f e := by
  induction l generalizing init with
  | nil => intro h; cases h
  | cons a l ih =>
    intro he
    simp only [List.foldl_cons]
    rcases List.mem_cons.mp he with h | h
    · subst h
      exact le_trans (foldl_min_le_init f l _) (min_le_right _ _)
    · exact ih _ h

theorem foldl_min_eq_init_or_mem (f : Entry → ℚ) (l : List Entry) (init : ℚ) :
    l.foldl (fun a x => min a (f x)) init = init ∨
      ∃ e ∈ l, l.foldl (fun a x => min a (f x)) init = f e := by
  induction l generalizing init with
  | nil => exact Or.inl rfl
  | cons a l ih =>
    simp only [List.foldl_cons]
    rcases ih (min init (f a)) with h | ⟨e, he, h⟩
    · rcases le_total init (f a) with hle | hle
      · left
        rw [h, min_eq_left hle]
      · right
        exact ⟨a, List.mem_cons_self a l, by rw [h, min_eq_right hle]⟩
    · right
      exact ⟨e, List.mem_cons_of_mem _ he, h⟩

theorem init_le_foldl_max (f : Entry → ℚ) (l : List Entry) (init : ℚ) :
    init ≤ l.foldl (fun a x => max a (f x)) init := by
  induction l generalizing init with
  | nil => simp
  | cons a l ih =>
    simp only [List.foldl_cons]
    exact le_trans (le_max_left _ _) (ih (max init (f a)))

theorem mem_le_foldl_max (f : Entry → ℚ) (l : List Entry) (init : ℚ) (e : Entry) :
    e ∈ l → f e ≤ l.foldl (fun a x => max a (f x)) init := by
  induction l generalizing init with
  | nil => intro h; cases h
  | cons a l ih =>
    intro he
    simp only [List.foldl_cons]
    rcases List.mem_cons.mp he with h | h
    · subst h
      exact le_trans (le_max_right _ _) (init_le_foldl_max f l _)
    · exact ih _ h

theorem foldl_max_eq_init_or_mem (f : Entry → ℚ) (l : List Entry) (init : ℚ) :
    l.foldl (fun a x => max a (f x)) init = init ∨
      ∃ e ∈ l, l.foldl (fun a x => max a (f x)) init = f e := by
  induction l generalizing init with
  | nil => exact Or.inl rfl
  | cons a l ih =>
    simp only [List.foldl_cons]
    rcases ih (max init (f a)) with h | ⟨e, he, h⟩
    · rcases le_total init (f a) with hle | hle
      · right
        exact ⟨a, List.mem_cons_self a l, by rw [h, max_eq_right hle]⟩
      · left
        rw [h, max_eq_left hle]
    · right
      exact ⟨e, List.mem_cons_of_mem _ he, h⟩

/-! The index lists produced by `sort()` are sorted permutations. -/

theorem map_nth_range (c : List Entry) : (List.range c.length).map (nth c) = c := by
  induction c with
  | nil => rfl
  | cons a c ih =>
    rw [List.length_cons, List.range_succ_eq_map, List.map_cons, List.map_map]
    have h : nth (a :: c) ∘ Nat.succ = nth c := by
      funext i
      rfl
    rw [h, ih]
    rfl

theorem takeWhile_eq_filter_of_pairwise {α : Type} {p : α → Bool} {l : List α}
    (h : l.Pairwise fun a b => p b = true → p a = true) :
    l.takeWhile p = l.filter p := by
  induction l with
  | nil => rfl
  | cons a l ih =>
    rw [List.pairwise_cons] at h
    by_cases hp : p a = true
    · rw [List.takeWhile_cons_of_pos hp, List.filter_cons_of_pos hp, ih h.2]
    · have hf : l.filter p = [] :=
        List.filter_eq_nil_iff.mpr fun b hb hpb => hp (h.1 b hb hpb)
      have hpa : p a = false := by
        simpa using hp
      simp [List.takeWhile_cons, List.filter_cons, hpa, hf]

theorem sortIndices_fst (c : List Entry) :
    sortedPermOf c (fun e => e.1.start) (sortIndices c).1 := by
  haveI : IsTotal ℕ (startLE c) := ⟨fun a b => le_total _ _⟩
  haveI : IsTrans ℕ (startLE c) := ⟨fun a b d hab hbd => le_trans hab hbd⟩
  refine ⟨List.perm_insertionSort _ _, ?_⟩
  rw [List.pairwise_map]
  exact List.sorted_insertionSort (startLE c) (List.range c.length)

theorem sortIndices_snd (c : List Entry) :
    sortedPermOf c (fun e => e.1.end_) (sortIndices c).2 := by
  haveI : IsTotal ℕ (endLE c) := ⟨fun a b => le_total _ _⟩
  haveI : IsTrans ℕ (endLE c) := ⟨fun a b d hab hbd => le_trans hab hbd⟩
  refine ⟨List.perm_insertionSort _ _, ?_⟩
  rw [List.pairwise_map]
  exact List.sorted_insertionSort (endLE c) (List.range c.length)

/-! The partitioning pass of the bulk constructor. -/

theorem partition_perm (entries : List Entry) :
    ((leftsOf entries ++ centerOf entries) ++ rightsOf entries).Perm entries := by
  have h1 := List.filter_append_perm
    (fun e : Entry => decide (e.1.end_ ≤ xCenterOf entries)) entries
  have h2 := List.filter_append_perm
    (fun e : Entry => decide (xCenterOf entries < e.1.start))
    (entries.filter fun e => !decide (e.1.end_ ≤ xCenterOf entries))
  rw [List.filter_filter, List.filter_filter] at h2
  have hr : rightsOf entries =
      entries.filter fun e =>
        decide (xCenterOf entries < e.1.start) &&
          !decide (e.1.end_ ≤ xCenterOf entries) := by
    unfold rightsOf
    exact List.filter_congr fun e _ => Bool.and_comm _ _
  have hc : centerOf entries =
      entries.filter fun e =>
        !decide (xCenterOf entries < e.1.start) &&
          !decide (e.1.end_ ≤ xCenterOf entries) := by
    unfold centerOf
    exact List.filter_congr fun e _ => Bool.and_comm _ _
  have h3 : (rightsOf entries ++ centerOf entries).Perm
      (entries.filter fun e => !decide (e.1.end_ ≤ xCenterOf entries)) := by
    rw [hr, hc]
    exact h2
  rw [List.append_assoc]
  exact (List.Perm.append_left _ (List.perm_append_comm.trans h3)).trans h1

theorem mem_centerOf {entries : List Entry} {e : Entry} (he : e ∈ centerOf entries) :
    e ∈ entries ∧ e.1.start ≤ xCenterOf entries ∧ xCenterOf entries < e.1.end_ := by
  unfold centerOf at he
  obtain ⟨hmem, hcond⟩ := List.mem_filter.mp he
  simp only [Bool.and_eq_true, Bool.not_eq_true', decide_eq_false_iff_not,
    not_le, not_lt] at hcond
  exact ⟨hmem, hcond.2, hcond.1⟩

theorem mem_leftsOf {entries : List Entry} {e : Entry} (he : e ∈ leftsOf entries) :
    e ∈ entries ∧ e.1.end_ ≤ xCenterOf entries := by
  unfold leftsOf at he
  obtain ⟨hmem, hcond⟩ := List.mem_filter.mp he
  simp only [decide_eq_true_eq] at hcond
  exact ⟨hmem, hcond⟩

theorem mem_rightsOf {entries : List Entry} {e : Entry} (he : e ∈ rightsOf entries) :
    e ∈ entries ∧ xCenterOf entries < e.1.start := by
  unfold rightsOf at he
  obtain ⟨hmem, hcond⟩ := List.mem_filter.mp he
  simp only [Bool.and_eq_true, Bool.not_eq_true', decide_eq_false_iff_not,
    decide_eq_true_eq] at hcond
  exact ⟨hmem, hcond.2⟩

/-- Inversion of one step of the fueled bulk constructor. -/
theorem buildAux_succ {fuel : ℕ} {entries : List Entry} {t : Tree}
    (h : buildAux (fuel + 1) entries = some t) :
    ∃ lt rt,
      ((leftsOf entries).isEmpty = true → lt = Tree.nil) ∧
      ((leftsOf entries).isEmpty = false → buildAux fuel (leftsOf entries) = some lt) ∧
      ((rightsOf entries).isEmpty = true → rt = Tree.nil) ∧
      ((rightsOf entries).isEmpty = false → buildAux fuel (rightsOf entries) = some rt) ∧
      t = Tree.node lt (centerOf entries)
        (sortIndices (centerOf entries)).1 (sortIndices (centerOf entries)).2
        (xCenterOf entries) rt := by
  simp only [buildAux] at h
  split at h
  case h_1 lt rt hL hR =>
    refine ⟨lt, rt, ?_, ?_, ?_, ?_, (Option.some.inj h).symm⟩
    · intro hemp
      rw [if_pos hemp] at hL
      exact (Option.some.inj hL).symm
    · intro hemp
      rw [if_neg (by simp [hemp])] at hL
      exact hL
    · intro hemp
      rw [if_pos hemp] at hR
      exact (Option.some.inj hR).symm
    · intro hemp
      rw [if_neg (by simp [hemp])] at hR
      exact hR
  case h_2 => cases h

/-- A tree produced by the bulk constructor stores exactly the input
entries (as a multiset). -/
theorem buildAux_entries : ∀ {fuel : ℕ} {entries : List Entry} {t : Tree},
    buildAux fuel entries = some t → (entriesOf t).Perm entries := by
  intro fuel
  induction fuel with
  | zero =>
    intro entries t h
    simp [buildAux] at h
  | succ fuel ih =>
    intro entries t h
    obtain ⟨lt, rt, hl0, hl1, hr0, hr1, rfl⟩ := buildAux_succ h
    have hlp : (entriesOf lt).Perm (leftsOf entries) := by
      cases hemp : (leftsOf entries).isEmpty with
      | true =>
        rw [hl0 hemp, List.isEmpty_iff.mp hemp]
        exact List.Perm.refl _
      | false => exact ih (hl1 hemp)
    have hrp : (entriesOf rt).Perm (rightsOf entries) := by
      cases hemp : (rightsOf entries).isEmpty with
      | true =>
        rw [hr0 hemp, List.isEmpty_iff.mp hemp]
        exact List.Perm.refl _
      | false => exact ih (hr1 hemp)
    simp only [entriesOf]
    exact ((hlp.append (List.Perm.refl (centerOf entries))).append hrp).trans
      (partition_perm entries)

/-- A tree produced by the bulk constructor satisfies all four structural
invariants at every node (this needs no well-formedness of the input: the
center filter predicate itself guarantees `start ≤ x_center < end`). -/
theorem buildAux_inv : ∀ {fuel : ℕ} {entries : List Entry} {t : Tree},
    buildAux fuel entries = some t → Inv t := by
  intro fuel
  induction fuel with
  | zero =>
    intro entries t h
    simp [buildAux] at h
  | succ fuel ih =>
    intro entries t h
    obtain ⟨lt, rt, hl0, hl1, hr0, hr1, rfl⟩ := buildAux_succ h
    have hlp : (entriesOf lt).Perm (leftsOf entries) := by
      cases hemp : (leftsOf entries).isEmpty with
      | true =>
        rw [hl0 hemp, List.isEmpty_iff.mp hemp]
        exact List.Perm.refl _
      | false => exact buildAux_entries (hl1 hemp)
    have hrp : (entriesOf rt).Perm (rightsOf entries) := by
      cases hemp : (rightsOf entries).isEmpty with
      | true =>
        rw [hr0 hemp, List.isEmpty_iff.mp hemp]
        exact List.Perm.refl _
      | false => exact buildAux_entries (hr1 hemp)
    have hinvl : Inv lt := by
      cases hemp : (leftsOf entries).isEmpty with
      | true => rw [hl0 hemp]; trivial
      | false => exact ih (hl1 hemp)
    have hinvr : Inv rt := by
      cases hemp : (rightsOf entries).isEmpty with
      | true => rw [hr0 hemp]; trivial
      | false => exact ih (hr1 hemp)
    simp only [Inv]
    refine ⟨?_, ?_, ?_, sortIndices_fst _, sortIndices_snd _, hinvl, hinvr⟩
    · intro e he
      exact (mem_centerOf he).2
    · intro e he
      exact (mem_leftsOf (hlp.subset he)).2
    · intro e he
      exact (mem_rightsOf (hrp.subset he)).2

/-! Termination of the bulk recursion on well-formed inputs: the midpoint
lies strictly between `t_min` and `t_max`, so the entries attaining
`t_max` and `t_min` are kept out of the left and right parts
respectively, making both strictly shorter than the input. -/

theorem tMinOf_le {entries : List Entry} {e : Entry} (he : e ∈ entries) :
    tMinOf entries ≤ e.1.start :=
  foldl_min_le_mem _ _ _ _ he

theorem le_tMaxOf {entries : List Entry} {e : Entry} (he : e ∈ entries) :
    e.1.end_ ≤ tMaxOf entries :=
  mem_le_foldl_max _ _ _ _ he

theorem tMin_lt_tMax {entries : List Entry} (hwf : wfEntries entries)
    (hne : entries ≠ []) : tMinOf entries < tMaxOf entries := by
  obtain ⟨e, he⟩ := List.exists_mem_of_ne_nil entries hne
  have h1 := tMinOf_le he
  have h2 := le_tMaxOf he
  have h3 := (hwf e he).1
  unfold wfInterval at h3
  linarith

theorem xCenter_between {entries : List Entry} (hwf : wfEntries entries)
    (hne : entries ≠ []) :
    tMinOf entries < xCenterOf entries ∧ xCenterOf entries < tMaxOf entries := by
  have h := tMin_lt_tMax hwf hne
  unfold xCenterOf
  have hne2 : (tMinOf entries + tMaxOf entries) / 2 ≠ tMaxOf entries := by
    intro hx
    linarith
  rw [if_neg hne2]
  constructor <;> linarith

theorem exists_start_eq_tMin {entries : List Entry} (hwf : wfEntries entries)
    (hne : entries ≠ []) : ∃ e ∈ entries, e.1.start = tMinOf entries := by
  rcases foldl_min_eq_init_or_mem (fun e => e.1.start) entries numericLimitsMax
    with h | ⟨e, he, h⟩
  · exfalso
    obtain ⟨e, he⟩ := List.exists_mem_of_ne_nil entries hne
    have h1 := tMinOf_le he
    have h2 : e.1.end_ ≤ numericLimitsMax := (hwf e he).2.2
    have h3 := (hwf e he).1
    unfold wfInterval at h3
    have h4 : tMinOf entries = numericLimitsMax := h
    rw [h4] at h1
    linarith
  · exact ⟨e, he, h.symm⟩

theorem exists_end_eq_tMax {entries : List Entry} (hwf : wfEntries entries)
    (hne : entries ≠ []) : ∃ e ∈ entries, e.1.end_ = tMaxOf entries := by
  rcases foldl_max_eq_init_or_mem (fun e => e.1.end_) entries numericLimitsLowest
    with h | ⟨e, he, h⟩
  · exfalso
    obtain ⟨e, he⟩ := List.exists_mem_of_ne_nil entries hne
    have h2 := le_tMaxOf he
    have h3 : numericLimitsLowest ≤ e.1.start := (hwf e he).2.1
    have h4 := (hwf e he).1
    unfold wfInterval at h4
    have h5 : tMaxOf entries = numericLimitsLowest := h
    rw [h5] at h2
    linarith
  · exact ⟨e, he, h.symm⟩

/-- On a well-formed entry sequence the bulk recursion succeeds whenever
the fuel exceeds the number of entries (the recursion depth is bounded by
the strictly decreasing part sizes). -/
theorem buildAux_total : ∀ {fuel : ℕ} {entries : List Entry},
    wfEntries entries → entries.length < fuel →
    ∃ t, buildAux fuel entries = some t := by
  intro fuel
  induction fuel with
  | zero =>
    intro entries _ h
    exact absurd h (Nat.not_lt_zero _)
  | succ fuel ih =>
    intro entries hwf hlen
    by_cases hne : entries = []
    · subst hne
      exact ⟨_, rfl⟩
    · obtain ⟨hx1, hx2⟩ := xCenter_between hwf hne
      obtain ⟨em, hem, hemEq⟩ := exists_end_eq_tMax hwf hne
      have hlL : (leftsOf entries).length < entries.length := by
        unfold leftsOf
        refine List.length_filter_lt_length_iff_exists.mpr ⟨em, hem, ?_⟩
        simp only [decide_eq_true_eq, hemEq]
        intro hcon
        linarith
      obtain ⟨es, hes, hesEq⟩ := exists_start_eq_tMin hwf hne
      have hlR : (rightsOf entries).length < entries.length := by
        unfold rightsOf
        refine List.length_filter_lt_length_iff_exists.mpr ⟨es, hes, ?_⟩
        simp only [Bool.and_eq_true, Bool.not_eq_true', decide_eq_false_iff_not,
          decide_eq_true_eq, hesEq, not_and]
        intro _ hcon
        linarith
      have hwfL : wfEntries (leftsOf entries) := fun e he => hwf e (mem_leftsOf he).1
      have hwfR : wfEntries (rightsOf entries) := fun e he => hwf e (mem_rightsOf he).1
      have hfl : entries.length ≤ fuel := Nat.lt_succ_iff.mp hlen
      obtain ⟨lt, hL⟩ : ∃ lt, (if (leftsOf entries).isEmpty = true then some Tree.nil
          else buildAux fuel (leftsOf entries)) = some lt := by
        by_cases hemp : (leftsOf entries).isEmpty = true
        · exact ⟨Tree.nil, by rw [if_pos hemp]⟩
        · obtain ⟨lt, hlt⟩ := ih hwfL (lt_of_lt_of_le hlL hfl)
          exact ⟨lt, by rw [if_neg hemp]; exact hlt⟩
      obtain ⟨rt, hR⟩ : ∃ rt, (if (rightsOf entries).isEmpty = true then some Tree.nil
          else buildAux fuel (rightsOf entries)) = some rt := by
        by_cases hemp : (rightsOf entries).isEmpty = true
        · exact ⟨Tree.nil, by rw [if_pos hemp]⟩
        · obtain ⟨rt, hrt⟩ := ih hwfR (lt_of_lt_of_le hlR hfl)
          exact ⟨rt, by rw [if_neg hemp]; exact hrt⟩
      refine ⟨Tree.node lt (centerOf entries) (sortIndices (centerOf entries)).1
        (sortIndices (centerOf entries)).2 (xCenterOf entries) rt, ?_⟩
      simp only [buildAux]
      rw [hL, hR]

/-! Correctness of the two early-exit scans: on a sorted index list the
`break` makes `takeWhile` equivalent to a full `filter`. -/

theorem scanAsc_perm (v : ℚ) (c : List Entry) (iS : List ℕ)
    (h : sortedPermOf c (fun e => e.1.start) iS) :
    (scanAsc v c iS).Perm (c.filter fun e => decide (e.1.start ≤ v)) := by
  obtain ⟨hperm, hsorted⟩ := h
  unfold scanAsc
  rw [List.pairwise_map] at hsorted
  have hpw : iS.Pairwise fun a b =>
      (fun i => decide ((nth c i).1.start ≤ v)) b = true →
        (fun i => decide ((nth c i).1.start ≤ v)) a = true :=
    hsorted.imp fun hab hb => by
      simp only [decide_eq_true_eq] at hab hb ⊢
      exact le_trans hab hb
  rw [takeWhile_eq_filter_of_pairwise hpw]
  have hcomm : (iS.filter fun i => decide ((nth c i).1.start ≤ v)).map (nth c)
      = (iS.map (nth c)).filter fun e => decide (e.1.start ≤ v) := by
    rw [List.filter_map]
    rfl
  rw [hcomm]
  have h2 : (iS.map (nth c)).Perm c := by
    have h3 := hperm.map (nth c)
    rwa [map_nth_range c] at h3
  exact h2.filter _

theorem scanDesc_perm (v : ℚ) (c : List Entry) (iE : List ℕ)
    (h : sortedPermOf c (fun e => e.1.end_) iE) :
    (scanDesc v c iE).Perm (c.filter fun e => decide (v < e.1.end_)) := by
  obtain ⟨hperm, hsorted⟩ := h
  unfold scanDesc
  rw [List.pairwise_map] at hsorted
  have hrev : iE.reverse.Pairwise fun a b =>
      (fun i => decide (v < (nth c i).1.end_)) b = true →
        (fun i => decide (v < (nth c i).1.end_)) a = true := by
    rw [List.pairwise_reverse]
    exact hsorted.imp fun hab hb => by
      simp only [decide_eq_true_eq] at hab hb ⊢
      exact lt_of_lt_of_le hb hab
  rw [takeWhile_eq_filter_of_pairwise hrev]
  have hcomm : (iE.reverse.filter fun i => decide (v < (nth c i).1.end_)).map (nth c)
      = (iE.reverse.map (nth c)).filter fun e => decide (v < e.1.end_) := by
    rw [List.filter_map]
    rfl
  rw [hcomm]
  have h2 : (iE.reverse.map (nth c)).Perm c := by
    have h3 := (iE.reverse_perm.trans hperm).map (nth c)
    rwa [map_nth_range c] at h3
  exact h2.filter _

/-- The single-branch descent returns exactly the stored entries that
contain the query point, for every tree satisfying the invariants. -/
theorem query_perm_filter : ∀ t : Tree, Inv t → ∀ v : ℚ,
    (query v t).Perm
      ((entriesOf t).filter fun e => decide (containsPoint e.1 v)) := by
  intro t
  induction t with
  | nil =>
    intro _ v
    simp [query, entriesOf]
  | node l c iS iE xc r ihl ihr =>
    intro hinv v
    simp only [Inv] at hinv
    obtain ⟨hc, hl, hr, hS, hE, hil, hir⟩ := hinv
    simp only [entriesOf, List.filter_append, query]
    by_cases hv : v ≤ xc
    · rw [if_pos hv]
      have hre : (entriesOf r).filter (fun e => decide (containsPoint e.1 v)) = [] := by
        rw [List.filter_eq_nil_iff]
        intro e he
        simp only [containsPoint, decide_eq_true_eq, not_and, not_lt]
        intro hs
        exfalso
        have h2 := hr e he
        linarith
      have hcfilter : (c.filter fun e => decide (e.1.start ≤ v))
          = c.filter fun e => decide (containsPoint e.1 v) := by
        refine List.filter_congr ?_
        intro e he
        have h2 := (hc e he).2
        simp only [containsPoint, decide_eq_decide]
        exact ⟨fun hs => ⟨hs, lt_of_le_of_lt hv h2⟩, fun hx => hx.1⟩
      have hscan : (scanAsc v c iS).Perm
          (c.filter fun e => decide (containsPoint e.1 v)) := by
        rw [← hcfilter]
        exact scanAsc_perm v c iS hS
      rw [hre, List.append_nil]
      exact (hscan.append (ihl hil v)).trans List.perm_append_comm
    · rw [if_neg hv]
      push_neg at hv
      have hle : (entriesOf l).filter (fun e => decide (containsPoint e.1 v)) = [] := by
        rw [List.filter_eq_nil_iff]
        intro e he
        simp only [containsPoint, decide_eq_true_eq, not_and, not_lt]
        intro _
        have h2 := hl e he
        linarith
      have hcfilter : (c.filter fun e => decide (v < e.1.end_))
          = c.filter fun e => decide (containsPoint e.1 v) := by
        refine List.filter_congr ?_
        intro e he
        have h1 := (hc e he).1
        simp only [containsPoint, decide_eq_decide]
        exact ⟨fun hx => ⟨le_of_lt (lt_of_le_of_lt h1 hv), hx⟩, fun hx => hx.2⟩
      have hscan : (scanDesc v c iE).Perm
          (c.filter fun e => decide (containsPoint e.1 v)) := by
        rw [← hcfilter]
        exact scanDesc_perm v c iE hE
      rw [hle, List.nil_append]
      exact hscan.append (ihr hir v)

/-! Incremental insertion preserves the stored multiset and the
structural invariants (the latter requires a positive-length interval:
a malformed interval landing in a freshly created leaf violates C1). -/

theorem insert_entriesOf (i : Interval) (v : ℕ) : ∀ t : Tree,
    (entriesOf (insert i v t)).Perm ((i, v) :: entriesOf t) := by
  intro t
  induction t with
  | nil =>
    simp [insert, leafNode, entriesOf]
  | node l c iS iE xc r ihl ihr =>
    simp only [insert]
    split_ifs with h1 h2
    · simp only [entriesOf]
      have h3 := (ihl.append (List.Perm.refl c)).append (List.Perm.refl (entriesOf r))
      refine h3.trans ?_
      simp only [List.cons_append]
      exact List.Perm.refl _
    · simp only [entriesOf]
      have h3 := (List.Perm.refl (entriesOf l ++ c)).append ihr
      refine h3.trans ?_
      exact List.perm_middle
    · simp only [entriesOf]
      have h3 : (entriesOf l ++ (c ++ [(i, v)])).Perm ((i, v) :: (entriesOf l ++ c)) := by
        have h4 : entriesOf l ++ (c ++ [(i, v)]) = (entriesOf l ++ c) ++ [(i, v)] :=
          (List.append_assoc _ _ _).symm
        rw [h4]
        exact List.perm_append_comm
      have h5 := h3.append (List.Perm.refl (entriesOf r))
      refine h5.trans ?_
      simp only [List.cons_append]
      exact List.Perm.refl _

theorem insert_inv (i : Interval) (v : ℕ) (hwf : wfInterval i) :
    ∀ t : Tree, Inv t → Inv (insert i v t) := by
  intro t
  induction t with
  | nil =>
    intro _
    unfold wfInterval at hwf
    simp only [insert, leafNode, Inv]
    refine ⟨?_, ?_, ?_, ⟨?_, ?_⟩, ⟨?_, ?_⟩, trivial, trivial⟩
    · intro e he
      rcases List.mem_singleton.mp he with rfl
      constructor
      · split_ifs with hguard
        · exact le_refl _
        · simp only
          linarith
      · split_ifs with hguard
        · exact hwf
        · simp only
          linarith
    · intro e he
      simp [entriesOf] at he
    · intro e he
      simp [entriesOf] at he
    · exact List.Perm.refl [0]
    · simp only [List.map_cons, List.map_nil]
      exact List.pairwise_singleton _ _
    · exact List.Perm.refl [0]
    · simp only [List.map_cons, List.map_nil]
      exact List.pairwise_singleton _ _
  | node l c iS iE xc r ihl ihr =>
    intro hinv
    simp only [Inv] at hinv
    obtain ⟨hc, hl, hr, hS, hE, hil, hir⟩ := hinv
    simp only [insert]
    split_ifs with h1 h2
    · simp only [Inv]
      refine ⟨hc, ?_, hr, hS, hE, ihl hil, hir⟩
      intro e he
      have hmem := (insert_entriesOf i v l).subset he
      rcases List.mem_cons.mp hmem with rfl | hmem2
      · exact h1
      · exact hl e hmem2
    · simp only [Inv]
      refine ⟨hc, hl, ?_, hS, hE, hil, ihr hir⟩
      intro e he
      have hmem := (insert_entriesOf i v r).subset he
      rcases List.mem_cons.mp hmem with rfl | hmem2
      · exact h2
      · exact hr e hmem2
    · push_neg at h1 h2
      simp only [Inv]
      refine ⟨?_, hl, hr, sortIndices_fst _, sortIndices_snd _, hil, hir⟩
      intro e he
      rcases List.mem_append.mp he with hm | hm
      · exact hc e hm
      · rcases List.mem_singleton.mp hm with rfl
        exact ⟨h2, h1⟩

/-! One mutating API call preserves the invariants. -/

theorem applyOp_inv {t t' : Tree} {op : Op} (hwf : opWF op) (hinv : Inv t)
    (h : applyOp t op = some t') : Inv t' := by
  cases op with
  | build es =>
    simp only [applyOp, build] at h
    exact buildAux_inv h
  | insert i v =>
    simp only [applyOp, Option.some.injEq] at h
    simp only [opWF] at hwf
    exact h ▸ insert_inv i v hwf t hinv

theorem runOps_inv : ∀ (ops : List Op) (t t' : Tree), (∀ op ∈ ops, opWF op) →
    Inv t → runOps t ops = some t' → Inv t' := by
  intro ops
  induction ops with
  | nil =>
    intro t t' _ hinv h
    simp only [runOps, Option.some.injEq] at h
    exact h ▸ hinv
  | cons op ops ih =>
    intro t t' hwf hinv h
    simp only [runOps] at h
    cases happ : applyOp t op with
    | none =>
      rw [happ] at h
      simp at h
    | some t1 =>
      rw [happ] at h
      exact ih t1 t' (fun o ho => hwf o (List.mem_cons_of_mem _ ho))
        (applyOp_inv (hwf op (List.mem_cons_self _ _)) hinv happ) h

/-- C1: for every tree built from a sequence of well-formed entries and
every query point `v`, the entries returned by `query v` are exactly the
stored entries `e` with `e.interval.start ≤ v < e.interval.end` — equal
as a multiset, hence as a set, independent of result order. -/
theorem build_query_exact (entries : List Entry) (hwf : wfEntries entries) (v : ℚ) :
    ∃ t, build entries = some t ∧
      (query v t).Perm (entries.filter fun e => decide (containsPoint e.1 v)) ∧
      ∀ e : Entry, e ∈ query v t ↔ e ∈ entries ∧ containsPoint e.1 v := by
  obtain ⟨t, ht⟩ := buildAux_total hwf (Nat.lt_succ_self _)
  have hperm : (query v t).Perm (entries.filter fun e => decide (containsPoint e.1 v)) :=
    (query_perm_filter t (buildAux_inv ht) v).trans ((buildAux_entries ht).filter _)
  refine ⟨t, ht, hperm, ?_⟩
  intro e
  rw [hperm.mem_iff, List.mem_filter, decide_eq_true_eq]

/-- Witness for C1 at a concrete input. -/
theorem build_query_exact_witness :
    wfEntries [((⟨0, 2⟩ : Interval), 5)] ∧
      ∃ t, build [((⟨0, 2⟩ : Interval), 5)] = some t ∧
        (query 1 t).Perm ([((⟨0, 2⟩ : Interval), 5)].filter fun e =>
          decide (containsPoint e.1 1)) ∧
        ∀ e : Entry, e ∈ query 1 t ↔
          e ∈ [((⟨0, 2⟩ : Interval), 5)] ∧ containsPoint e.1 1 :=
  ⟨by decide, build_query_exact _ (by decide) 1⟩

/-- C2: inserting a well-formed `(i, value)` into any tree holding
well-formed entries — any state the API can produce, whether bulk-built,
grown by chained inserts, or both, i.e. any tree satisfying the
structural invariants — is observationally equivalent, for every
subsequent query point, to building a fresh tree from the held entries
plus the new one: both queries return the same multiset of entries
(internal shape may differ). -/
theorem insert_equiv_rebuild (t : Tree) (i : Interval) (value : ℕ) (pt : ℚ)
    (hinv : Inv t) (hwf : wfEntries (entriesOf t))
    (hi : wfInterval i ∧ boundedInterval i) :
    ∃ t', build (entriesOf t ++ [(i, value)]) = some t' ∧
      (query pt (insert i value t)).Perm (query pt t') := by
  have hwf2 : wfEntries (entriesOf t ++ [(i, value)]) := by
    intro e he
    rcases List.mem_append.mp he with hm | hm
    · exact hwf e hm
    · rcases List.mem_singleton.mp hm with rfl
      exact hi
  obtain ⟨t', ht'⟩ := buildAux_total hwf2 (Nat.lt_succ_self _)
  refine ⟨t', ht', ?_⟩
  have h1 : (query pt (insert i value t)).Perm
      ((entriesOf (insert i value t)).filter fun e => decide (containsPoint e.1 pt)) :=
    query_perm_filter _ (insert_inv i value hi.1 t hinv) pt
  have h2 : (entriesOf (insert i value t)).Perm (entriesOf t ++ [(i, value)]) :=
    (insert_entriesOf i value t).trans
      (@List.perm_append_comm _ [(i, value)] (entriesOf t))
  have h4 := query_perm_filter t' (buildAux_inv ht') pt
  have h5 : (entriesOf t').Perm (entriesOf t ++ [(i, value)]) := buildAux_entries ht'
  exact h1.trans (((h2.filter _).trans ((h5.filter _).symm)).trans h4.symm)

/-- Witness for C2 at a concrete insert-grown tree (a leaf extended by an
insert into its center list). -/
theorem insert_equiv_rebuild_witness :
    (Inv (Tree.node Tree.nil [((⟨0, 2⟩ : Interval), 0), (⟨1, 3⟩, 1)]
        [0, 1] [0, 1] 1 Tree.nil) ∧
      wfEntries (entriesOf (Tree.node Tree.nil
        [((⟨0, 2⟩ : Interval), 0), (⟨1, 3⟩, 1)] [0, 1] [0, 1] 1 Tree.nil)) ∧
      (wfInterval ⟨2, 4⟩ ∧ boundedInterval ⟨2, 4⟩)) ∧
      ∃ t', build (entriesOf (Tree.node Tree.nil
          [((⟨0, 2⟩ : Interval), 0), (⟨1, 3⟩, 1)] [0, 1] [0, 1] 1 Tree.nil)
          ++ [(⟨2, 4⟩, 2)]) = some t' ∧
        (query (5 / 2) (insert ⟨2, 4⟩ 2 (Tree.node Tree.nil
          [((⟨0, 2⟩ : Interval), 0), (⟨1, 3⟩, 1)] [0, 1] [0, 1] 1 Tree.nil))).Perm
          (query (5 / 2) t') :=
  ⟨⟨by decide, by decide, by decide, by decide⟩,
    insert_equiv_rebuild
      (Tree.node Tree.nil [((⟨0, 2⟩ : Interval), 0), (⟨1, 3⟩, 1)]
        [0, 1] [0, 1] 1 Tree.nil) ⟨2, 4⟩ 2 (5 / 2)
      (by decide) (by decide) ⟨by decide, by decide⟩⟩

/-- C3: every tree reachable from the freshly constructed empty tree by a
sequence of `build` and `insert` operations with well-formed arguments
satisfies the four structural node invariants C1–C4 at every node. -/
theorem ops_preserve_inv (ops : List Op) (t : Tree)
    (hwf : ∀ op ∈ ops, opWF op) (h : runOps Tree.nil ops = some t) : Inv t :=
  runOps_inv ops Tree.nil t hwf True.intro h

/-- Witness for C3 at a concrete operation sequence. -/
theorem ops_preserve_inv_witness :
    (∀ op ∈ [Op.build [((⟨0, 2⟩ : Interval), 0)], Op.insert ⟨1, 3⟩ 1], opWF op) ∧
      Inv (Tree.node Tree.nil [((⟨0, 2⟩ : Interval), 0), (⟨1, 3⟩, 1)]
        [0, 1] [0, 1] 1 Tree.nil) :=
  ⟨by decide,
    ops_preserve_inv [Op.build [((⟨0, 2⟩ : Interval), 0)], Op.insert ⟨1, 3⟩ 1]
      (Tree.node Tree.nil [((⟨0, 2⟩ : Interval), 0), (⟨1, 3⟩, 1)]
        [0, 1] [0, 1] 1 Tree.nil) (by decide) (by with_unfolding_all rfl)⟩

theorem clone_eq : ∀ t : Tree, clone t = t := by
  intro t
  induction t with
  | nil => rfl
  | node l c iS iE xc r ihl ihr => simp [clone, ihl, ihr]

/-- C4: copy construction and copy assignment deep-clone the source, so a
copy of a non-empty tree answers every query exactly as the original.
But for the empty, freshly constructed tree (null root) the source runs
`root_ = other.root_->clone();` with no null check, dereferencing a null
pointer — undefined behavior (modelled by `none`) instead of an
independent empty clone, so the claim fails on the empty tree. -/
theorem copy_empty_tree_bug :
    copyConstruct Tree.nil = none ∧
      ∀ t : Tree, t ≠ Tree.nil →
        copyConstruct t = some t ∧ ∀ v : ℚ, query v (clone t) = query v t := by
  refine ⟨rfl, ?_⟩
  intro t ht
  constructor
  · cases t with
    | nil => exact absurd rfl ht
    | node l c iS iE xc r => simp [copyConstruct, clone_eq]
  · intro v
    rw [clone_eq]

/-- Witness for the non-degenerate part of C4 at a concrete tree. -/
theorem copy_empty_tree_bug_witness :
    (leafNode ⟨0, 1⟩ 0 ≠ Tree.nil) ∧
      (copyConstruct (leafNode ⟨0, 1⟩ 0) = some (leafNode ⟨0, 1⟩ 0) ∧
        ∀ v : ℚ, query v (clone (leafNode ⟨0, 1⟩ 0)) = query v (leafNode ⟨0, 1⟩ 0)) :=
  ⟨by with_unfolding_all decide,
    copy_empty_tree_bug.2 (leafNode ⟨0, 1⟩ 0) (by with_unfolding_all decide)⟩

/-- C5: half-open boundary semantics at the public interface — for the
stored interval `[5, 6)` the query at `5` returns its entry and the query
at `6` returns nothing; and a query point exactly equal to a node's
`x_center` takes the `val ≤ x_center` branch: ascending-start scan
followed by descent into the left child only. -/
theorem boundary_semantics :
    (∃ t, build [((⟨5, 6⟩ : Interval), 0)] = some t ∧
      query 5 t = [((⟨5, 6⟩ : Interval), 0)] ∧ query 6 t = []) ∧
    ∀ (l : Tree) (c : List Entry) (iS iE : List ℕ) (xc : ℚ) (r : Tree),
      query xc (Tree.node l c iS iE xc r) = scanAsc xc c iS ++ query xc l := by
  constructor
  · refine ⟨Tree.node Tree.nil [(⟨5, 6⟩, 0)] [0] [0] (11 / 2) Tree.nil, ?_, ?_, ?_⟩
    · with_unfolding_all rfl
    · with_unfolding_all rfl
    · with_unfolding_all rfl
  · intro l c iS iE xc r
    simp [query]

/-- C6: querying an empty tree (freshly constructed, or after `clear()`)
is not an error and returns the empty result for every point; `clear()`
followed by `build(entries)` produces exactly the same root as building
on a fresh tree, hence the same query results. -/
theorem clear_empty_and_rebuild (t : Tree) (v : ℚ) (entries : List Entry) :
    query v (clear t) = [] ∧ query v Tree.nil = [] ∧
      buildOn (clear t) entries = buildOn Tree.nil entries ∧
      Option.map (query v) (buildOn (clear t) entries) =
        Option.map (query v) (build entries) :=
  ⟨rfl, rfl, rfl, rfl⟩

/-- C7: a bulk-built node's center coordinate is the midpoint
`(t_min + t_max) / 2` of the minimum start and maximum end of its entry
sequence, except that a midpoint equal to `t_max` is replaced by `t_min`;
a single-entry leaf created by `insert` applies the same rule with the
entry's own start and end. -/
theorem x_center_midpoint (entries : List Entry)
    (hwf : wfEntries entries) (hne : entries ≠ []) :
    (∃ lt rt iS iE xc tmin tmax,
      build entries = some (Tree.node lt (centerOf entries) iS iE xc rt) ∧
      (∃ e ∈ entries, e.1.start = tmin) ∧ (∀ e ∈ entries, tmin ≤ e.1.start) ∧
      (∃ e ∈ entries, e.1.end_ = tmax) ∧ (∀ e ∈ entries, e.1.end_ ≤ tmax) ∧
      xc = if (tmin + tmax) / 2 = tmax then tmin else (tmin + tmax) / 2) ∧
    ∀ (i : Interval) (value : ℕ),
      xcOf (leafNode i value) =
        if (i.start + i.end_) / 2 = i.end_ then i.start
        else (i.start + i.end_) / 2 := by
  constructor
  · obtain ⟨t, ht⟩ := buildAux_total hwf (Nat.lt_succ_self _)
    obtain ⟨lt, rt, _, _, _, _, rfl⟩ := buildAux_succ ht
    refine ⟨lt, rt, _, _, _, tMinOf entries, tMaxOf entries, ht, ?_, ?_, ?_, ?_, rfl⟩
    · exact exists_start_eq_tMin hwf hne
    · exact fun e he => tMinOf_le he
    · exact exists_end_eq_tMax hwf hne
    · exact fun e he => le_tMaxOf he
  · intro i value
    rfl

/-- Witness for C7 at a concrete input. -/
theorem x_center_midpoint_witness :
    wfEntries [((⟨0, 2⟩ : Interval), 7)] ∧ [((⟨0, 2⟩ : Interval), 7)] ≠ [] ∧
      ((∃ lt rt iS iE xc tmin tmax,
        build [((⟨0, 2⟩ : Interval), 7)] =
          some (Tree.node lt (centerOf [((⟨0, 2⟩ : Interval), 7)]) iS iE xc rt) ∧
        (∃ e ∈ [((⟨0, 2⟩ : Interval), 7)], e.1.start = tmin) ∧
        (∀ e ∈ [((⟨0, 2⟩ : Interval), 7)], tmin ≤ e.1.start) ∧
        (∃ e ∈ [((⟨0, 2⟩ : Interval), 7)], e.1.end_ = tmax) ∧
        (∀ e ∈ [((⟨0, 2⟩ : Interval), 7)], e.1.end_ ≤ tmax) ∧
        xc = if (tmin + tmax) / 2 = tmax then tmin else (tmin + tmax) / 2) ∧
      ∀ (i : Interval) (value : ℕ),
        xcOf (leafNode i value) =
          if (i.start + i.end_) / 2 = i.end_ then i.start
          else (i.start + i.end_) / 2) :=
  ⟨by decide, by decide, x_center_midpoint [((⟨0, 2⟩ : Interval), 7)] (by decide) (by decide)⟩

theorem buildAux_malformed_none :
    ∀ fuel : ℕ, buildAux fuel [((⟨5, 0⟩ : Interval), 0)] = none := by
  intro fuel
  induction fuel with
  | zero => rfl
  | succ fuel ih =>
    have hl : leftsOf [((⟨5, 0⟩ : Interval), 0)] = [((⟨5, 0⟩ : Interval), 0)] := by
      with_unfolding_all rfl
    simp only [buildAux, hl]
    rw [if_neg (by decide), ih]

/-- C8 counterexample: `build` on the single malformed entry with interval
`[5, 0)` (end ≤ start) does not complete — the partitioning places the
entry in the left part at every level, so the recursion never returns,
whatever the fuel. -/
theorem build_malformed_diverges :
    ¬ ∃ (fuel : ℕ) (t : Tree), buildAux fuel [((⟨5, 0⟩ : Interval), 0)] = some t := by
  rintro ⟨fuel, t, h⟩
  rw [buildAux_malformed_none fuel] at h
  cases h

/-- C8 amended: neither `insert` nor `build` validates `end > start`;
`insert` completes and silently admits the malformed entry into the tree,
while `build` — though it also performs no validation — can fail to
terminate on malformed input (see the counterexample), so "completes"
holds only for `insert`. -/
theorem insert_malformed_admitted (i : Interval) (v : ℕ) (t : Tree)
    (_hm : i.end_ ≤ i.start) :
    (entriesOf (insert i v t)).Perm ((i, v) :: entriesOf t) :=
  insert_entriesOf i v t

/-- Witness for the amended C8 at a concrete malformed interval. -/
theorem insert_malformed_admitted_witness :
    ((⟨5, 0⟩ : Interval).end_ ≤ (⟨5, 0⟩ : Interval).start) ∧
      (entriesOf (insert ⟨5, 0⟩ 0 Tree.nil)).Perm
        (((⟨5, 0⟩ : Interval), 0) :: entriesOf Tree.nil) :=
  ⟨by decide, insert_malformed_admitted ⟨5, 0⟩ 0 Tree.nil (by decide)⟩

/-- C9: after move construction or move assignment, the moved-from source
behaves exactly like a freshly constructed empty tree (every query
returns the empty result), and the destination answers every query
exactly as the source did before the move. -/
theorem move_semantics (t : Tree) (v : ℚ) :
    query v (moveConstruct t).2 = query v Tree.nil ∧
      query v (moveConstruct t).2 = [] ∧
      query v (moveConstruct t).1 = query v t :=
  ⟨rfl, rfl, rfl⟩

/-- C10: `build` on an empty entry sequence succeeds, installing a root
node with an empty center list, empty index arrays and no children, whose
`x_center` is derived from the numeric-limits sentinels; every
subsequent query returns the empty result. -/
theorem build_empty_entries :
    build ([] : List Entry) =
      some (Tree.node Tree.nil [] [] []
        ((numericLimitsMax + numericLimitsLowest) / 2) Tree.nil) ∧
    ∀ v : ℚ,
      query v (Tree.node Tree.nil [] [] []
        ((numericLimitsMax + numericLimitsLowest) / 2) Tree.nil) = [] := by
  constructor
  · with_unfolding_all rfl
  · intro v
    simp [query, scanAsc, scanDesc]

end IntervalTree
